import Mathlib

/-!
Shallow embedding of the HTTP/JSON codec in `FastAPI_CPP/http_lib.h`
(namespace `http`): the JSON value model with its serializer, the HTTP
primitive types, the request parser and the response writer, together
with theorems settling the specification claims.

Strings are modelled as `List Char` (the code works byte-by-byte on
ASCII data); `std::map` is modelled as a key-sorted association list
with the two insertion flavours the code uses (`operator[]`, which
overwrites, and range construction, which keeps the first occurrence).
C++ `int` is modelled as `Int` with the `std::stoi` range check made
explicit.  Failure paths of the C++ code (exceptions thrown by
`std::stoi` and `std::string::substr`, and the out-of-bounds
`std::vector::operator[]` accesses, which are undefined behaviour) are
modelled by an explicit error type threaded through `Except`.
-/

namespace http

/-- C-locale `isspace`: the six ASCII whitespace characters. -/
def isSpaceC (c : Char) : Bool :=
  c = ' ' || c = '\t' || c = '\n' || c = '\x0b' || c = '\x0c' || c = '\r'

/-- `http::trim`: remove whitespace from both ends. -/
def trim (s : List Char) : List Char :=
  ((s.dropWhile isSpaceC).reverse.dropWhile isSpaceC).reverse

/-- Fuel-indexed worker for `http::split`; the fuel only serves to make
the recursion structural and is always sufficient at the call site. -/
def splitCppF (delim : Char) : Nat → List Char → List (List Char)
  | 0, _ => []
  | fuel + 1, s =>
    match s with
    | [] => []
    | c :: cs =>
      let t := (c :: cs).takeWhile (fun x => x != delim)
      t :: splitCppF delim fuel ((c :: cs).drop (t.length + 1))

/-- `http::split`: repeated `std::getline` with delimiter `delim`.
An empty input yields no tokens and a trailing delimiter yields no
trailing empty token, exactly as with `std::getline`. -/
def splitCpp (delim : Char) (s : List Char) : List (List Char) :=
  splitCppF delim (s.length + 1) s

/-- The `int` range used by `std::stoi`. -/
def intMin : Int := -(2 ^ 31)

/-- The `int` range used by `std::stoi`. -/
def intMax : Int := 2 ^ 31 - 1

/-- The failure modes of `parse_request`: the two exceptions `std::stoi`
can throw, the `std::out_of_range` thrown by `substr` when the position
is past the end, and the out-of-bounds vector access (undefined
behaviour in C++, surfaced here as an explicit error). -/
inductive ParseError where
  | stoiInvalid : ParseError
  | stoiRange : ParseError
  | substrRange : ParseError
  | vecIndex : ParseError
deriving DecidableEq

/-- Decidable equality on results, for concrete evaluation. -/
instance {ε α : Type} [DecidableEq ε] [DecidableEq α] : DecidableEq (Except ε α) :=
  fun a b =>
    match a, b with
    | .ok x, .ok y =>
      if h : x = y then isTrue (by rw [h]) else isFalse (by intro hh; injection hh; contradiction)
    | .error x, .error y =>
      if h : x = y then isTrue (by rw [h]) else isFalse (by intro hh; injection hh; contradiction)
    | .ok _, .error _ => isFalse (by intro hh; cases hh)
    | .error _, .ok _ => isFalse (by intro hh; cases hh)

/-- `std::stoi`: skip leading whitespace, read an optional sign and a
non-empty run of decimal digits (ignoring any trailing characters);
fails with `invalid_argument` when there is no digit and with
`out_of_range` when the value does not fit in `int`. -/
def stoiCpp (s : List Char) : Except ParseError Int :=
  let s1 := s.dropWhile isSpaceC
  let signed : Int × List Char :=
    match s1 with
    | '+' :: r => (1, r)
    | '-' :: r => (-1, r)
    | r => (1, r)
  let digs := signed.2.takeWhile Char.isDigit
  if digs = [] then .error .stoiInvalid
  else
    let v : Int := signed.1 * (digs.foldl (fun a c => a * 10 + (c.toNat - 48)) 0 : Nat)
    if v < intMin then .error .stoiRange
    else if intMax < v then .error .stoiRange
    else .ok v

/-- `http::Method`. -/
inductive Method where
  | GET | HEAD | POST | PUT | PATCH | DELETE | CONNECT | OPTIONS | TRACE | UNKNOWN
deriving DecidableEq

/-- `http::string_to_method`: exact match against the nine known verbs,
anything else is `UNKNOWN`. -/
def string_to_method (m : List Char) : Method :=
  if m = "GET".toList then .GET
  else if m = "HEAD".toList then .HEAD
  else if m = "POST".toList then .POST
  else if m = "PUT".toList then .PUT
  else if m = "DELETE".toList then .DELETE
  else if m = "CONNECT".toList then .CONNECT
  else if m = "OPTIONS".toList then .OPTIONS
  else if m = "TRACE".toList then .TRACE
  else if m = "PATCH".toList then .PATCH
  else .UNKNOWN

/-- `http::method_to_string`. -/
def method_to_string : Method → List Char
  | .GET => "GET".toList
  | .HEAD => "HEAD".toList
  | .POST => "POST".toList
  | .PUT => "PUT".toList
  | .DELETE => "DELETE".toList
  | .CONNECT => "CONNECT".toList
  | .OPTIONS => "OPTIONS".toList
  | .TRACE => "TRACE".toList
  | .PATCH => "PATCH".toList
  | .UNKNOWN => "UNKNOWN".toList

/-- `http::Response::status_message`: the switch over `HttpStatus`.
`HttpStatus` is an `enum class` backed by `int`, and arbitrary values
can be cast into it, so the status is modelled as `Int`. -/
def status_message (s : Int) : List Char :=
  if s = 200 then "OK".toList
  else if s = 201 then "Created".toList
  else if s = 202 then "Accepted".toList
  else if s = 204 then "No Content".toList
  else if s = 400 then "Bad Request".toList
  else if s = 401 then "Unauthorized".toList
  else if s = 403 then "Forbidden".toList
  else if s = 404 then "Not Found".toList
  else if s = 405 then "Method Not Allowed".toList
  else if s = 500 then "Internal Server Error".toList
  else if s = 501 then "Not Implemented".toList
  else if s = 502 then "Bad Gateway".toList
  else if s = 503 then "Service Unavailable".toList
  else "Unknown Status".toList

/-- Decimal digit character. -/
def digitCharC (d : Nat) : Char := Char.ofNat (48 + d)

/-- Fuel-indexed worker for the decimal rendering; the fuel only makes
the recursion structural and is always sufficient at the call site. -/
def natDigitsF : Nat → Nat → List Char
  | 0, _ => []
  | fuel + 1, n =>
    if n < 10 then [digitCharC n]
    else natDigitsF fuel (n / 10) ++ [digitCharC (n % 10)]

/-- Decimal digits of a natural number, most significant first, as
produced by `std::to_string`. -/
def natDigits (n : Nat) : List Char :=
  natDigitsF (n + 1) n

/-- `std::to_string` on `int`. -/
def intDecimal (n : Int) : List Char :=
  if n < 0 then '-' :: natDigits n.natAbs else natDigits n.toNat

/-- `http::JSON::escape_string`, one character at a time: the switch
over the named escapes, then the control-character branch
(`'\x00' <= c && c <= '\x1f'`), which pads the decimal rendering of the
byte value to four characters with leading zeros. -/
def escape_char (c : Char) : List Char :=
  if c = '"' then ['\\', '"']
  else if c = '\\' then ['\\', '\\']
  else if c = '\x08' then ['\\', 'b']
  else if c = '\x0c' then ['\\', 'f']
  else if c = '\n' then ['\\', 'n']
  else if c = '\r' then ['\\', 'r']
  else if c = '\t' then ['\\', 't']
  else if c.toNat ≤ 31 then
    '\\' :: 'u' :: (List.replicate (4 - (natDigits c.toNat).length) '0' ++ natDigits c.toNat)
  else [c]

/-- `http::JSON::escape_string`: the loop over the characters. -/
def escape_string (s : List Char) : List Char :=
  (s.map escape_char).flatten

/-- Lexicographic comparison of character lists: the order used by
`std::string::operator<` (byte-wise lexicographic), which is the key
order of `std::map<std::string, ...>`. -/
def ltChars : List Char → List Char → Bool
  | [], [] => false
  | [], _ :: _ => true
  | _ :: _, [] => false
  | a :: as, b :: bs => if a < b then true else if b < a then false else ltChars as bs

/-- `std::string::operator<` on the string model. -/
def ltStr (a b : String) : Bool := ltChars a.data b.data

/-- Insert into a key-sorted association list, keeping an existing
entry with an equal key: the behaviour of `std::map::insert`, hence of
the `std::map` range constructor used by `JSON::object` and by the
header-map initializer lists. -/
def mapInsertNew (k : String) (v : α) : List (String × α) → List (String × α)
  | [] => [(k, v)]
  | (k', v') :: rest =>
    if ltStr k k' then (k, v) :: (k', v') :: rest
    else if ltStr k' k then (k', v') :: mapInsertNew k v rest
    else (k', v') :: rest

/-- Insert into a key-sorted association list, overwriting an entry
with an equal key: the behaviour of `std::map::operator[]` followed by
assignment, used for request headers. -/
def mapInsert (k : String) (v : α) : List (String × α) → List (String × α)
  | [] => [(k, v)]
  | (k', v') :: rest =>
    if ltStr k k' then (k, v) :: (k', v') :: rest
    else if ltStr k' k then (k', v') :: mapInsert k v rest
    else (k', v) :: rest

/-- An `std::map` built by inserting the pairs of `l` in order with
`insert` semantics (first occurrence of a key wins), as the `std::map`
range constructor does. -/
def mapFromListNew (l : List (String × α)) : List (String × α) :=
  l.foldl (fun m kv => mapInsertNew kv.1 kv.2 m) []

/-- An `std::map` built by inserting the pairs of `l` in order with
`operator[]` semantics (last occurrence of a key wins). -/
def mapFromList (l : List (String × α)) : List (String × α) :=
  l.foldl (fun m kv => mapInsert kv.1 kv.2 m) []

/-- `std::map::find` on the association-list model. -/
def alookup (k : String) : List (String × α) → Option α
  | [] => none
  | (k', v') :: rest => if k = k' then some v' else alookup k rest

/-- `http::JSON`: the variant of value shapes.  The C++ variant also
has a `double` alternative; floating point is outside this embedding
and no claim touches it, so it is omitted here. -/
inductive JSON where
  | null : JSON
  | bool : Bool → JSON
  | int : Int → JSON
  | str : List Char → JSON
  | arr : List JSON → JSON
  | obj : List (String × JSON) → JSON

/-- `http::JSON::object`: build the underlying `std::map` from the
initializer list (first occurrence of a duplicate key wins). -/
def objOf (l : List (String × JSON)) : JSON :=
  .obj (mapFromListNew l)

mutual

/-- `http::JSON::stringify`: the visitor over the value shapes. -/
def stringify : JSON → List Char
  | .null => "null".toList
  | .bool b => if b then "true".toList else "false".toList
  | .int n => intDecimal n
  | .str s => '"' :: (escape_string s ++ ['"'])
  | .arr xs => '[' :: (stringifyArr xs ++ [']'])
  | .obj kvs => '{' :: (stringifyMembers kvs ++ ['}'])

/-- The array loop of `stringify`: comma before every element but the
first. -/
def stringifyArr : List JSON → List Char
  | [] => []
  | [x] => stringify x
  | x :: y :: t => stringify x ++ ',' :: stringifyArr (y :: t)

/-- The object loop of `stringify`: each member rendered as
`"key":value` with the key passed through `escape_string`, comma before
every member but the first. -/
def stringifyMembers : List (String × JSON) → List Char
  | [] => []
  | [kv] => '"' :: (escape_string kv.1.data ++ '"' :: ':' :: stringify kv.2)
  | kv :: kv2 :: t =>
    ('"' :: (escape_string kv.1.data ++ '"' :: ':' :: stringify kv.2)) ++
      ',' :: stringifyMembers (kv2 :: t)

end

/-- `http::Version`. -/
structure Version where
  major : Int
  minor : Int
deriving DecidableEq

/-- `http::Request`. -/
structure Request where
  method : Method
  uri : List Char
  version : Version
  headers : List (String × String)
  body : List Char
deriving DecidableEq

/-- `http::Response`.  The status is an `Int` for the reason explained
at `status_message`. -/
structure Response where
  version : Version
  status : Int
  headers : List (String × String)
  body : List Char
deriving DecidableEq

/-- One iteration of the header loop of `parse_request` on a line that
is not the terminator: find the first `':'` (`std::string::find`); if
there is none the line is skipped, otherwise both sides are trimmed and
stored with `operator[]` (overwriting) semantics. -/
def headerStep (acc : List (String × String)) (line : List Char) : List (String × String) :=
  let pre := line.takeWhile (fun x => x != ':')
  if pre.length = line.length then acc
  else
    mapInsert (String.mk (trim pre)) (String.mk (trim (line.drop (pre.length + 1)))) acc

/-- Fuel-indexed worker for the header loop; the fuel only makes the
recursion structural and is always sufficient at the call site. -/
def headerLoopF : Nat → List Char → List (String × String) → List (String × String) × List Char
  | 0, _, acc => (acc, [])
  | fuel + 1, s, acc =>
    match s with
    | [] => (acc, [])
    | c :: cs =>
      let line := (c :: cs).takeWhile (fun x => x != '\n')
      let rest := (c :: cs).drop (line.length + 1)
      if line = ['\r'] then (acc, rest)
      else headerLoopF fuel rest (headerStep acc line)

/-- The header loop of `parse_request`:
`while (std::getline(stream, line) && line != "\r")`, then the rest of
the buffer verbatim as the body. -/
def headerLoop (s : List Char) (acc : List (String × String)) :
    List (String × String) × List Char :=
  headerLoopF (s.length + 1) s acc

/-- The first `std::getline` of `parse_request`: the first line and the
remaining buffer.  On an empty buffer `getline` fails and leaves the
line empty. -/
def requestLineRest (raw : List Char) : List Char × List Char :=
  match raw with
  | [] => ([], [])
  | c :: cs =>
    (((c :: cs).takeWhile (fun x => x != '\n')),
      (c :: cs).drop (((c :: cs).takeWhile (fun x => x != '\n')).length + 1))

/-- The version parse of `parse_request` on the third token:
`split(parts[2].substr(5), '.')` followed by
`{std::stoi(version_parts[0]), std::stoi(version_parts[1])}`.
`substr(5)` throws `std::out_of_range` when the token is shorter than
five characters; indexing an absent element of `version_parts` is
undefined behaviour in C++ and is surfaced as `.vecIndex`; braced-list
elements are evaluated left to right. -/
def version_of_token (tok : List Char) : Except ParseError Version :=
  if tok.length < 5 then .error .substrRange
  else
    match splitCpp '.' (tok.drop 5) with
    | [] => .error .vecIndex
    | v0 :: rest =>
      match stoiCpp v0 with
      | .error e => .error e
      | .ok maj =>
        match rest with
        | [] => .error .vecIndex
        | v1 :: _ =>
          match stoiCpp v1 with
          | .error e => .error e
          | .ok mnr => .ok ⟨maj, mnr⟩

/-- `http::parse_request`.  `Request request;` default-initializes the
struct: the `std::string` and `std::map` members become empty, but the
scalar members `method` and `version.major`/`version.minor` are left
with indeterminate values (C++ default-initialization does not zero
scalars).  Those indeterminate values are modelled as the explicit
parameters `indetMethod` and `indetVersion`, so every theorem about
`parse_request` holds for whatever garbage the uninitialized members
may contain; they survive into the result only when the first line has
fewer than 3 tokens, since the 3-token branch assigns all three
fields. -/
def parse_request (indetMethod : Method) (indetVersion : Version) (raw : List Char) :
    Except ParseError Request :=
  let lr := requestLineRest raw
  let parts := splitCpp ' ' lr.1
  if 3 ≤ parts.length then
    match version_of_token (parts.getD 2 []) with
    | .error e => .error e
    | .ok v =>
      let hb := headerLoop lr.2 []
      .ok ⟨string_to_method (parts.getD 0 []), parts.getD 1 [], v, hb.1, hb.2⟩
  else
    let hb := headerLoop lr.2 []
    .ok ⟨indetMethod, [], indetVersion, hb.1, hb.2⟩

/-- `http::construct_response`: the status line, one line per header in
the map's iteration order, a blank line, then the body verbatim. -/
def construct_response (r : Response) : List Char :=
  "HTTP/".toList ++ intDecimal r.version.major ++ '.' :: intDecimal r.version.minor ++
    ' ' :: intDecimal r.status ++ ' ' :: status_message r.status ++ "\r\n".toList ++
    (r.headers.map (fun h => h.1.data ++ ':' :: ' ' :: h.2.data ++ "\r\n".toList)).flatten ++
    "\r\n".toList ++ r.body

/-- Claim-side rendering of the escaping rules, transcribed from the
specification's words: the seven named escapes, then any other byte
below 0x20 as a backslash-u escape whose four digits are the byte's
value in decimal, zero-padded to 4 digits; every other byte copied
through unchanged.  The 4-digit field is written here as the four
decimal digits of the value directly, to be compared with the padding
arithmetic of the code. -/
def escapeCharClaim (c : Char) : List Char :=
  if c = '"' then ['\\', '"']
  else if c = '\\' then ['\\', '\\']
  else if c = '\x08' then ['\\', 'b']
  else if c = '\x0c' then ['\\', 'f']
  else if c = '\n' then ['\\', 'n']
  else if c = '\r' then ['\\', 'r']
  else if c = '\t' then ['\\', 't']
  else if c.toNat < 0x20 then
    ['\\', 'u', digitCharC (c.toNat / 1000 % 10), digitCharC (c.toNat / 100 % 10),
      digitCharC (c.toNat / 10 % 10), digitCharC (c.toNat % 10)]
  else [c]

/-- The key order used in sortedness statements about the map model. -/
def keyLt (a b : String × α) : Prop := ltStr a.1 b.1 = true

/-- The first defined of two optional values. -/
def firstSome (a b : Option α) : Option α :=
  match a with
  | some v => some v
  | none => b

/-- Comma-joined concatenation, as produced by the serializer's
first-element flag. -/
def joinComma : List (List Char) → List Char
  | [] => []
  | [x] => x
  | x :: y :: t => x ++ ',' :: joinComma (y :: t)


/-! ### Fuel adequacy and unfolding equations -/

theorem splitCppF_cons (delim : Char) (fuel : Nat) (c : Char) (cs : List Char) :
    splitCppF delim (fuel + 1) (c :: cs) =
      ((c :: cs).takeWhile (fun x => x != delim)) ::
        splitCppF delim fuel
          ((c :: cs).drop (((c :: cs).takeWhile (fun x => x != delim)).length + 1)) := rfl

theorem splitCppF_adequate (delim : Char) :
    ∀ fuel s, s.length < fuel → splitCppF delim fuel s = splitCpp delim s := by
  intro fuel
  induction fuel using Nat.strong_induction_on with
  | _ fuel ih =>
    intro s hs
    match fuel, s with
    | fuel + 1, [] => rfl
    | fuel + 1, c :: cs =>
      have hcs : cs.length < fuel := by
        simp only [List.length_cons] at hs
        omega
      rw [splitCppF_cons]
      rw [show splitCpp delim (c :: cs) = splitCppF delim (cs.length + 1 + 1) (c :: cs) from rfl]
      rw [splitCppF_cons]
      have hr : ((c :: cs).drop (((c :: cs).takeWhile (fun x => x != delim)).length + 1)).length
          ≤ cs.length := by
        simp only [List.length_drop, List.length_cons]
        omega
      rw [ih fuel (Nat.lt_succ_self _) _ (by omega), ih (cs.length + 1) (by omega) _ (by omega)]

theorem splitCpp_nil (delim : Char) : splitCpp delim [] = [] := rfl

theorem splitCpp_cons (delim : Char) (c : Char) (cs : List Char) :
    splitCpp delim (c :: cs) =
      ((c :: cs).takeWhile (fun x => x != delim)) ::
        splitCpp delim ((c :: cs).drop (((c :: cs).takeWhile (fun x => x != delim)).length + 1)) := by
  rw [show splitCpp delim (c :: cs) = splitCppF delim (cs.length + 1 + 1) (c :: cs) from rfl]
  rw [splitCppF_cons]
  rw [splitCppF_adequate]
  simp only [List.length_drop, List.length_cons]
  omega

theorem headerLoopF_cons (fuel : Nat) (c : Char) (cs : List Char) (acc : List (String × String)) :
    headerLoopF (fuel + 1) (c :: cs) acc =
      if (c :: cs).takeWhile (fun x => x != '\n') = ['\r'] then
        (acc, (c :: cs).drop (((c :: cs).takeWhile (fun x => x != '\n')).length + 1))
      else
        headerLoopF fuel ((c :: cs).drop (((c :: cs).takeWhile (fun x => x != '\n')).length + 1))
          (headerStep acc ((c :: cs).takeWhile (fun x => x != '\n'))) := rfl

theorem headerLoopF_adequate :
    ∀ fuel s acc, s.length < fuel → headerLoopF fuel s acc = headerLoop s acc := by
  intro fuel
  induction fuel using Nat.strong_induction_on with
  | _ fuel ih =>
    intro s acc hs
    match fuel, s with
    | fuel + 1, [] => rfl
    | fuel + 1, c :: cs =>
      have hcs : cs.length < fuel := by
        simp only [List.length_cons] at hs
        omega
      rw [headerLoopF_cons]
      rw [show headerLoop (c :: cs) acc = headerLoopF (cs.length + 1 + 1) (c :: cs) acc from rfl]
      rw [headerLoopF_cons]
      have hr : ((c :: cs).drop (((c :: cs).takeWhile (fun x => x != '\n')).length + 1)).length
          ≤ cs.length := by
        simp only [List.length_drop, List.length_cons]
        omega
      by_cases hterm : (c :: cs).takeWhile (fun x => x != '\n') = ['\r']
      · rw [if_pos hterm, if_pos hterm]
      · rw [if_neg hterm, if_neg hterm]
        rw [ih fuel (Nat.lt_succ_self _) _ _ (by omega),
          ih (cs.length + 1) (by omega) _ _ (by omega)]

theorem headerLoop_nil (acc : List (String × String)) : headerLoop [] acc = (acc, []) := rfl

theorem headerLoop_cons (c : Char) (cs : List Char) (acc : List (String × String)) :
    headerLoop (c :: cs) acc =
      if (c :: cs).takeWhile (fun x => x != '\n') = ['\r'] then
        (acc, (c :: cs).drop (((c :: cs).takeWhile (fun x => x != '\n')).length + 1))
      else
        headerLoop ((c :: cs).drop (((c :: cs).takeWhile (fun x => x != '\n')).length + 1))
          (headerStep acc ((c :: cs).takeWhile (fun x => x != '\n'))) := by
  rw [show headerLoop (c :: cs) acc = headerLoopF (cs.length + 1 + 1) (c :: cs) acc from rfl]
  rw [headerLoopF_cons]
  by_cases hterm : (c :: cs).takeWhile (fun x => x != '\n') = ['\r']
  · rw [if_pos hterm, if_pos hterm]
  · rw [if_neg hterm, if_neg hterm]
    rw [headerLoopF_adequate]
    simp only [List.length_drop, List.length_cons]
    omega

theorem takeWhile_append_sep (p : Char → Bool) (l r : List Char) (a : Char)
    (hl : ∀ c ∈ l, p c = true) (ha : p a = false) :
    (l ++ a :: r).takeWhile p = l := by
  induction l with
  | nil => simp [List.takeWhile_cons, ha]
  | cons c cs ih =>
    simp only [List.cons_append, List.takeWhile_cons, hl c (List.mem_cons_self c cs)]
    simp only [if_true]
    rw [ih (fun x hx => hl x (List.mem_cons_of_mem c hx))]

theorem drop_append_sep (l r : List Char) (a : Char) :
    (l ++ a :: r).drop (l.length + 1) = r := by
  induction l with
  | nil => simp
  | cons c cs ih => simp [ih]

/-! ### Order facts about the key comparison -/

theorem ltChars_trans : ∀ {a b c : List Char},
    ltChars a b = true → ltChars b c = true → ltChars a c = true := by
  intro a
  induction a with
  | nil =>
    intro b c hab hbc
    cases b with
    | nil => simp [ltChars] at hab
    | cons y ys =>
      cases c with
      | nil => simp [ltChars] at hbc
      | cons z zs => simp [ltChars]
  | cons x xs ih =>
    intro b c hab hbc
    cases b with
    | nil => simp [ltChars] at hab
    | cons y ys =>
      cases c with
      | nil => simp [ltChars] at hbc
      | cons z zs =>
        simp only [ltChars] at hab hbc ⊢
        by_cases hxy : x < y
        · by_cases hyz : y < z
          · simp [lt_trans hxy hyz]
          · by_cases hzy : z < y
            · simp [hyz, hzy] at hbc
            · have hyeq : y = z := le_antisymm (not_lt.mp hzy) (not_lt.mp hyz)
              subst hyeq
              simp [hxy]
        · by_cases hyx : y < x
          · simp [hxy, hyx] at hab
          · have hxeq : x = y := le_antisymm (not_lt.mp hyx) (not_lt.mp hxy)
            subst hxeq
            simp only [hxy, if_false, if_neg (lt_irrefl x)] at hab ⊢
            by_cases hyz : x < z
            · simp [hyz]
            · by_cases hzy : z < x
              · simp [hyz, hzy] at hbc
              · have hyeq : x = z := le_antisymm (not_lt.mp hzy) (not_lt.mp hyz)
                subst hyeq
                simp only [lt_irrefl x, if_false] at hbc ⊢
                exact ih hab hbc

theorem ltChars_asymm : ∀ {a b : List Char}, ltChars a b = true → ltChars b a = false := by
  intro a
  induction a with
  | nil =>
    intro b hab
    cases b with
    | nil => simp [ltChars] at hab
    | cons y ys => simp [ltChars]
  | cons x xs ih =>
    intro b hab
    cases b with
    | nil => simp [ltChars] at hab
    | cons y ys =>
      simp only [ltChars] at hab ⊢
      by_cases hxy : x < y
      · have : ¬ y < x := lt_asymm hxy
        simp [this, hxy]
      · by_cases hyx : y < x
        · simp [hxy, hyx] at hab
        · simp only [hxy, hyx, if_false] at hab ⊢
          exact ih hab

theorem ltChars_eq_of_not : ∀ {a b : List Char},
    ltChars a b = false → ltChars b a = false → a = b := by
  intro a
  induction a with
  | nil =>
    intro b hab _
    cases b with
    | nil => rfl
    | cons y ys => simp [ltChars] at hab
  | cons x xs ih =>
    intro b hab hba
    cases b with
    | nil => simp [ltChars] at hba
    | cons y ys =>
      simp only [ltChars] at hab hba
      by_cases hxy : x < y
      · simp [hxy] at hab
      · by_cases hyx : y < x
        · simp [hyx, lt_asymm hyx] at hba
        · have hxeq : x = y := le_antisymm (not_lt.mp hyx) (not_lt.mp hxy)
          subst hxeq
          simp only [hxy, lt_irrefl x, if_false] at hab hba
          rw [ih hab hba]

theorem ltStr_trans {a b c : String} (hab : ltStr a b = true) (hbc : ltStr b c = true) :
    ltStr a c = true :=
  ltChars_trans hab hbc

theorem ltStr_asymm {a b : String} (hab : ltStr a b = true) : ltStr b a = false :=
  ltChars_asymm hab

theorem ltStr_eq_of_not {a b : String} (hab : ltStr a b = false) (hba : ltStr b a = false) :
    a = b := by
  cases a with
  | mk da =>
    cases b with
    | mk db =>
      simp only [ltStr] at hab hba
      rw [ltChars_eq_of_not hab hba]

/-! ### Association-list map lemmas -/

theorem ltStr_irrefl (k : String) : ltStr k k = false := by
  cases h : ltStr k k with
  | false => rfl
  | true =>
    have hf := ltStr_asymm h
    rw [h] at hf
    exact hf

theorem mem_mapInsertNew {α : Type} {k : String} {v : α} :
    ∀ {m : List (String × α)} {x}, x ∈ mapInsertNew k v m → x = (k, v) ∨ x ∈ m := by
  intro m
  induction m with
  | nil =>
    intro x hx
    simp only [mapInsertNew] at hx
    exact Or.inl (List.mem_singleton.mp hx)
  | cons p rest ih =>
    intro x hx
    obtain ⟨k', v'⟩ := p
    simp only [mapInsertNew] at hx
    by_cases h1 : ltStr k k' = true
    · rw [if_pos h1] at hx
      rcases List.mem_cons.mp hx with h | h
      · exact Or.inl h
      · exact Or.inr h
    · rw [if_neg h1] at hx
      by_cases h2 : ltStr k' k = true
      · rw [if_pos h2] at hx
        rcases List.mem_cons.mp hx with h | h
        · rw [h]; exact Or.inr (List.mem_cons_self _ _)
        · rcases ih h with h' | h'
          · exact Or.inl h'
          · exact Or.inr (List.mem_cons_of_mem _ h')
      · rw [if_neg h2] at hx
        exact Or.inr hx

theorem mem_mapInsert {α : Type} {k : String} {v : α} :
    ∀ {m : List (String × α)} {x}, x ∈ mapInsert k v m → x = (k, v) ∨ x ∈ m := by
  intro m
  induction m with
  | nil =>
    intro x hx
    simp only [mapInsert] at hx
    exact Or.inl (List.mem_singleton.mp hx)
  | cons p rest ih =>
    intro x hx
    obtain ⟨k', v'⟩ := p
    simp only [mapInsert] at hx
    by_cases h1 : ltStr k k' = true
    · rw [if_pos h1] at hx
      rcases List.mem_cons.mp hx with h | h
      · exact Or.inl h
      · exact Or.inr h
    · rw [if_neg h1] at hx
      by_cases h2 : ltStr k' k = true
      · rw [if_pos h2] at hx
        rcases List.mem_cons.mp hx with h | h
        · rw [h]; exact Or.inr (List.mem_cons_self _ _)
        · rcases ih h with h' | h'
          · exact Or.inl h'
          · exact Or.inr (List.mem_cons_of_mem _ h')
      · rw [if_neg h2] at hx
        have hke : k = k' :=
          ltStr_eq_of_not (Bool.not_eq_true _ |>.mp h1) (Bool.not_eq_true _ |>.mp h2)
        rcases List.mem_cons.mp hx with h | h
        · rw [h, hke]; exact Or.inl rfl
        · exact Or.inr (List.mem_cons_of_mem _ h)

theorem pairwise_mapInsertNew {α : Type} {k : String} {v : α} :
    ∀ {m : List (String × α)}, m.Pairwise (fun a b => ltStr a.1 b.1 = true) →
      (mapInsertNew k v m).Pairwise (fun a b => ltStr a.1 b.1 = true) := by
  intro m
  induction m with
  | nil =>
    intro _
    simp [mapInsertNew]
  | cons p rest ih =>
    intro hm
    obtain ⟨k', v'⟩ := p
    rw [List.pairwise_cons] at hm
    obtain ⟨hk', hrest⟩ := hm
    simp only [mapInsertNew]
    by_cases h1 : ltStr k k' = true
    · rw [if_pos h1, List.pairwise_cons]
      constructor
      · intro b hb
        rcases List.mem_cons.mp hb with h | h
        · rw [h]; exact h1
        · exact ltStr_trans h1 (hk' b h)
      · rw [List.pairwise_cons]
        exact ⟨hk', hrest⟩
    · rw [if_neg h1]
      by_cases h2 : ltStr k' k = true
      · rw [if_pos h2, List.pairwise_cons]
        constructor
        · intro b hb
          rcases mem_mapInsertNew hb with h | h
          · rw [h]; exact h2
          · exact hk' b h
        · exact ih hrest
      · rw [if_neg h2, List.pairwise_cons]
        exact ⟨hk', hrest⟩

theorem pairwise_mapInsert {α : Type} {k : String} {v : α} :
    ∀ {m : List (String × α)}, m.Pairwise (fun a b => ltStr a.1 b.1 = true) →
      (mapInsert k v m).Pairwise (fun a b => ltStr a.1 b.1 = true) := by
  intro m
  induction m with
  | nil =>
    intro _
    simp [mapInsert]
  | cons p rest ih =>
    intro hm
    obtain ⟨k', v'⟩ := p
    rw [List.pairwise_cons] at hm
    obtain ⟨hk', hrest⟩ := hm
    simp only [mapInsert]
    by_cases h1 : ltStr k k' = true
    · rw [if_pos h1, List.pairwise_cons]
      constructor
      · intro b hb
        rcases List.mem_cons.mp hb with h | h
        · rw [h]; exact h1
        · exact ltStr_trans h1 (hk' b h)
      · rw [List.pairwise_cons]
        exact ⟨hk', hrest⟩
    · rw [if_neg h1]
      by_cases h2 : ltStr k' k = true
      · rw [if_pos h2, List.pairwise_cons]
        constructor
        · intro b hb
          rcases mem_mapInsert hb with h | h
          · rw [h]; exact h2
          · exact hk' b h
        · exact ih hrest
      · rw [if_neg h2, List.pairwise_cons]
        exact ⟨hk', hrest⟩

theorem pairwise_foldl_mapInsertNew {α : Type} :
    ∀ (l m : List (String × α)), m.Pairwise (fun a b => ltStr a.1 b.1 = true) →
      (l.foldl (fun m kv => mapInsertNew kv.1 kv.2 m) m).Pairwise
        (fun a b => ltStr a.1 b.1 = true) := by
  intro l
  induction l with
  | nil => intro m hm; exact hm
  | cons kv t ih =>
    intro m hm
    exact ih (mapInsertNew kv.1 kv.2 m) (pairwise_mapInsertNew hm)

theorem pairwise_foldl_mapInsert {α : Type} :
    ∀ (l m : List (String × α)), m.Pairwise (fun a b => ltStr a.1 b.1 = true) →
      (l.foldl (fun m kv => mapInsert kv.1 kv.2 m) m).Pairwise
        (fun a b => ltStr a.1 b.1 = true) := by
  intro l
  induction l with
  | nil => intro m hm; exact hm
  | cons kv t ih =>
    intro m hm
    exact ih (mapInsert kv.1 kv.2 m) (pairwise_mapInsert hm)

theorem pairwise_mapFromListNew {α : Type} (l : List (String × α)) :
    (mapFromListNew l).Pairwise (fun a b => ltStr a.1 b.1 = true) :=
  pairwise_foldl_mapInsertNew l [] List.Pairwise.nil

theorem pairwise_mapFromList {α : Type} (l : List (String × α)) :
    (mapFromList l).Pairwise (fun a b => ltStr a.1 b.1 = true) :=
  pairwise_foldl_mapInsert l [] List.Pairwise.nil

theorem firstSome_none_right {α : Type} (a : Option α) : firstSome a none = a := by
  cases a <;> rfl

theorem alookup_eq_none_of_forall {α : Type} {k : String} :
    ∀ {m : List (String × α)}, (∀ p ∈ m, p.1 ≠ k) → alookup k m = none := by
  intro m
  induction m with
  | nil => intro _; rfl
  | cons p rest ih =>
    intro h
    obtain ⟨k', v'⟩ := p
    simp only [alookup]
    rw [if_neg (fun he => h (k', v') (List.mem_cons_self _ _) he.symm)]
    exact ih (fun q hq => h q (List.mem_cons_of_mem _ hq))

theorem alookup_mem {α : Type} {k : String} {v : α} :
    ∀ {m : List (String × α)}, alookup k m = some v → (k, v) ∈ m := by
  intro m
  induction m with
  | nil => intro h; cases h
  | cons p rest ih =>
    intro h
    obtain ⟨k', v'⟩ := p
    simp only [alookup] at h
    by_cases he : k = k'
    · rw [if_pos he] at h
      injection h with h
      rw [he, h]
      exact List.mem_cons_self _ _
    · rw [if_neg he] at h
      exact List.mem_cons_of_mem _ (ih h)

theorem alookup_mapInsert_self {α : Type} (k : String) (v : α) :
    ∀ m : List (String × α), alookup k (mapInsert k v m) = some v := by
  intro m
  induction m with
  | nil => simp [mapInsert, alookup]
  | cons p rest ih =>
    obtain ⟨k', v'⟩ := p
    simp only [mapInsert]
    by_cases h1 : ltStr k k' = true
    · rw [if_pos h1]
      simp [alookup]
    · rw [if_neg h1]
      by_cases h2 : ltStr k' k = true
      · rw [if_pos h2]
        have hne : k ≠ k' := by
          intro he
          rw [he] at h2
          rw [ltStr_irrefl k'] at h2
          cases h2
        simp only [alookup]
        rw [if_neg hne]
        exact ih
      · rw [if_neg h2]
        have hke : k = k' :=
          ltStr_eq_of_not (Bool.not_eq_true _ |>.mp h1) (Bool.not_eq_true _ |>.mp h2)
        simp only [alookup]
        rw [if_pos hke]

theorem alookup_mapInsertNew_self {α : Type} (k : String) (v : α) :
    ∀ m : List (String × α), m.Pairwise (fun a b => ltStr a.1 b.1 = true) →
      alookup k (mapInsertNew k v m) = some ((alookup k m).getD v) := by
  intro m
  induction m with
  | nil => intro _; simp [mapInsertNew, alookup]
  | cons p rest ih =>
    intro hm
    obtain ⟨k', v'⟩ := p
    rw [List.pairwise_cons] at hm
    obtain ⟨hk', hrest⟩ := hm
    simp only [mapInsertNew]
    by_cases h1 : ltStr k k' = true
    · rw [if_pos h1]
      have hnone : alookup k ((k', v') :: rest) = none := by
        apply alookup_eq_none_of_forall
        intro p hp he
        rcases List.mem_cons.mp hp with h | h
        · subst h
          have hk2 : k' = k := he
          rw [hk2] at h1
          rw [ltStr_irrefl] at h1
          cases h1
        · have hlt : ltStr k' p.1 = true := hk' p h
          rw [he] at hlt
          have hasym := ltStr_asymm h1
          rw [hlt] at hasym
          cases hasym
      rw [hnone]
      simp [alookup]
    · rw [if_neg h1]
      by_cases h2 : ltStr k' k = true
      · rw [if_pos h2]
        have hne : k ≠ k' := by
          intro he
          rw [he] at h2
          rw [ltStr_irrefl k'] at h2
          cases h2
        simp only [alookup, if_neg hne]
        exact ih hrest
      · rw [if_neg h2]
        have hke : k = k' :=
          ltStr_eq_of_not (Bool.not_eq_true _ |>.mp h1) (Bool.not_eq_true _ |>.mp h2)
        simp [alookup, hke]

theorem alookup_mapInsertNew_ne {α : Type} {k k' : String} (hne : k ≠ k') (v : α) :
    ∀ m : List (String × α), alookup k (mapInsertNew k' v m) = alookup k m := by
  intro m
  induction m with
  | nil => simp [mapInsertNew, alookup, hne]
  | cons p rest ih =>
    obtain ⟨k0, v0⟩ := p
    simp only [mapInsertNew]
    by_cases h1 : ltStr k' k0 = true
    · rw [if_pos h1]
      simp only [alookup]
      rw [if_neg hne]
    · rw [if_neg h1]
      by_cases h2 : ltStr k0 k' = true
      · rw [if_pos h2]
        simp only [alookup]
        by_cases he : k = k0
        · rw [if_pos he, if_pos he]
        · rw [if_neg he, if_neg he]
          exact ih
      · rw [if_neg h2]

theorem alookup_foldl_mapInsertNew {α : Type} (k : String) :
    ∀ (l m : List (String × α)), m.Pairwise (fun a b => ltStr a.1 b.1 = true) →
      alookup k (l.foldl (fun m kv => mapInsertNew kv.1 kv.2 m) m) =
        firstSome (alookup k m) (alookup k l) := by
  intro l
  induction l with
  | nil =>
    intro m _
    rw [List.foldl_nil, show alookup k ([] : List (String × α)) = none from rfl,
      firstSome_none_right]
  | cons kv t ih =>
    intro m hm
    obtain ⟨k0, v0⟩ := kv
    rw [List.foldl_cons]
    rw [ih (mapInsertNew k0 v0 m) (pairwise_mapInsertNew hm)]
    by_cases hk : k = k0
    · subst hk
      rw [alookup_mapInsertNew_self k v0 m hm]
      rw [show alookup k ((k, v0) :: t) = some v0 from by simp [alookup]]
      cases halm : alookup k m with
      | none => simp [firstSome]
      | some w => simp [firstSome]
    · rw [alookup_mapInsertNew_ne hk v0 m]
      rw [show alookup k ((k0, v0) :: t) = alookup k t from by simp [alookup, hk]]

theorem alookup_mapFromListNew {α : Type} (k : String) (l : List (String × α)) :
    alookup k (mapFromListNew l) = alookup k l := by
  rw [show mapFromListNew l = l.foldl (fun m kv => mapInsertNew kv.1 kv.2 m) [] from rfl]
  rw [alookup_foldl_mapInsertNew k l [] List.Pairwise.nil]
  rfl

theorem sorted_alookup_ext {α : Type} :
    ∀ {l1 l2 : List (String × α)},
      l1.Pairwise (fun a b => ltStr a.1 b.1 = true) →
      l2.Pairwise (fun a b => ltStr a.1 b.1 = true) →
      (∀ k, alookup k l1 = alookup k l2) → l1 = l2 := by
  intro l1
  induction l1 with
  | nil =>
    intro l2 _ _ hl
    cases l2 with
    | nil => rfl
    | cons q s =>
      have hc := hl q.1
      rw [show alookup q.1 ([] : List (String × α)) = none from rfl] at hc
      rw [show alookup q.1 (q :: s) = some q.2 from by
        obtain ⟨k2, v2⟩ := q; simp [alookup]] at hc
      cases hc
  | cons p t ih =>
    intro l2 h1 h2 hl
    cases l2 with
    | nil =>
      have hc := hl p.1
      rw [show alookup p.1 ([] : List (String × α)) = none from rfl] at hc
      rw [show alookup p.1 (p :: t) = some p.2 from by
        obtain ⟨k1, v1⟩ := p; simp [alookup]] at hc
      cases hc
    | cons q s =>
      obtain ⟨k1, v1⟩ := p
      obtain ⟨k2, v2⟩ := q
      rw [List.pairwise_cons] at h1 h2
      obtain ⟨hk1, ht⟩ := h1
      obtain ⟨hk2, hs⟩ := h2
      have hl1 : alookup k1 ((k2, v2) :: s) = some v1 := by
        rw [← hl k1]; simp [alookup]
      have hl2 : alookup k2 ((k1, v1) :: t) = some v2 := by
        rw [hl k2]; simp [alookup]
      have hkeq : k1 = k2 := by
        by_cases hne : k1 = k2
        · exact hne
        · exfalso
          have m1 := alookup_mem hl1
          have m2 := alookup_mem hl2
          have m1s : (k1, v1) ∈ s := by
            rcases List.mem_cons.mp m1 with h | h
            · exact absurd (congrArg Prod.fst h) hne
            · exact h
          have m2t : (k2, v2) ∈ t := by
            rcases List.mem_cons.mp m2 with h | h
            · exact absurd (congrArg Prod.fst h).symm hne
            · exact h
          have l12 : ltStr k1 k2 = true := hk1 (k2, v2) m2t
          have l21 : ltStr k2 k1 = true := hk2 (k1, v1) m1s
          rw [ltStr_asymm l12] at l21
          cases l21
      subst hkeq
      have hveq : v1 = v2 := by
        have hc := hl1
        simp [alookup] at hc
        exact hc.symm
      subst hveq
      have htails : ∀ k, alookup k t = alookup k s := by
        intro k
        by_cases hk : k = k1
        · subst hk
          have hnt : alookup k t = none := by
            apply alookup_eq_none_of_forall
            intro p hp he
            have hlt : ltStr k p.1 = true := hk1 p hp
            rw [he] at hlt
            rw [ltStr_irrefl] at hlt
            cases hlt
          have hns : alookup k s = none := by
            apply alookup_eq_none_of_forall
            intro p hp he
            have hlt : ltStr k p.1 = true := hk2 p hp
            rw [he] at hlt
            rw [ltStr_irrefl] at hlt
            cases hlt
          rw [hnt, hns]
        · have hc := hl k
          rw [show alookup k ((k1, v1) :: t) = alookup k t from by simp [alookup, hk]] at hc
          rw [show alookup k ((k1, v1) :: s) = alookup k s from by simp [alookup, hk]] at hc
          exact hc
      rw [ih ht hs htails]

theorem alookup_perm {α : Type} {l1 l2 : List (String × α)} (hp : l1.Perm l2) :
    (l1.map Prod.fst).Nodup → ∀ k, alookup k l1 = alookup k l2 := by
  induction hp with
  | nil => intro _ k; rfl
  | cons x hp ih =>
    intro hn k
    rw [List.map_cons, List.nodup_cons] at hn
    obtain ⟨k0, v0⟩ := x
    simp only [alookup]
    by_cases hk : k = k0
    · rw [if_pos hk, if_pos hk]
    · rw [if_neg hk, if_neg hk]
      exact ih hn.2 k
  | swap x y l =>
    intro hn k
    obtain ⟨kx, vx⟩ := x
    obtain ⟨ky, vy⟩ := y
    rw [List.map_cons, List.map_cons, List.nodup_cons] at hn
    have hxy : ky ≠ kx := by
      intro he
      exact hn.1 (by rw [he]; exact List.mem_cons_self _ _)
    by_cases hk : k = ky
    · have hkx : ¬ k = kx := by rw [hk]; exact hxy
      simp [alookup, hk, hkx, hxy]
    · by_cases hk' : k = kx
      · simp [alookup, hk, hk', Ne.symm hxy]
      · simp [alookup, hk, hk']
  | trans h12 h23 ih12 ih23 =>
    intro hn k
    rw [ih12 hn k]
    exact ih23 ((h12.map Prod.fst).nodup hn) k

theorem mapFromListNew_perm {α : Type} {l1 l2 : List (String × α)} (hp : l1.Perm l2)
    (hn : (l1.map Prod.fst).Nodup) : mapFromListNew l1 = mapFromListNew l2 :=
  sorted_alookup_ext (pairwise_mapFromListNew l1) (pairwise_mapFromListNew l2)
    (fun k => by
      rw [alookup_mapFromListNew, alookup_mapFromListNew]
      exact alookup_perm hp hn k)

/-! ### Escaping -/

theorem escape_char_eq_claim (c : Char) : escape_char c = escapeCharClaim c := by
  simp only [escape_char, escapeCharClaim]
  by_cases h1 : c = '"'
  · rw [if_pos h1, if_pos h1]
  rw [if_neg h1, if_neg h1]
  by_cases h2 : c = '\\'
  · rw [if_pos h2, if_pos h2]
  rw [if_neg h2, if_neg h2]
  by_cases h3 : c = '\x08'
  · rw [if_pos h3, if_pos h3]
  rw [if_neg h3, if_neg h3]
  by_cases h4 : c = '\x0c'
  · rw [if_pos h4, if_pos h4]
  rw [if_neg h4, if_neg h4]
  by_cases h5 : c = '\n'
  · rw [if_pos h5, if_pos h5]
  rw [if_neg h5, if_neg h5]
  by_cases h6 : c = '\r'
  · rw [if_pos h6, if_pos h6]
  rw [if_neg h6, if_neg h6]
  by_cases h7 : c = '\t'
  · rw [if_pos h7, if_pos h7]
  rw [if_neg h7, if_neg h7]
  by_cases h8 : c.toNat ≤ 31
  · rw [if_pos h8, if_pos (show c.toNat < 0x20 by omega)]
    have key : ∀ n < 32,
        ('\\' :: 'u' :: (List.replicate (4 - (natDigits n).length) '0' ++ natDigits n)
          : List Char) =
        ['\\', 'u', digitCharC (n / 1000 % 10), digitCharC (n / 100 % 10),
          digitCharC (n / 10 % 10), digitCharC (n % 10)] := by decide
    exact key c.toNat (by omega)
  · rw [if_neg h8, if_neg (show ¬ c.toNat < 0x20 by omega)]

theorem escape_string_eq_claim (s : List Char) :
    escape_string s = (s.map escapeCharClaim).flatten := by
  simp only [escape_string]
  induction s with
  | nil => rfl
  | cons c cs ih =>
    simp only [List.map_cons, List.flatten_cons, ih, escape_char_eq_claim]

/-! ### The serializer's member and element loops -/

theorem stringifyMembers_eq (kvs : List (String × JSON)) :
    stringifyMembers kvs =
      joinComma (kvs.map (fun kv => stringify (.str kv.1.data) ++ ':' :: stringify kv.2)) := by
  induction kvs with
  | nil => rfl
  | cons kv t ih =>
    cases t with
    | nil =>
      simp only [stringifyMembers, List.map_cons, List.map_nil, joinComma, stringify]
      simp
    | cons kv2 t2 =>
      simp only [stringifyMembers, List.map_cons, joinComma, stringify] at ih ⊢
      rw [ih]
      simp

/-! ### Header loop structure -/

theorem takeWhile_length_le (p : Char → Bool) :
    ∀ l : List Char, (l.takeWhile p).length ≤ l.length := by
  intro l
  induction l with
  | nil => simp
  | cons c cs ih =>
    rw [List.takeWhile_cons]
    by_cases h : p c = true
    · rw [if_pos h]
      simp only [List.length_cons]
      omega
    · rw [if_neg h]
      simp

theorem takeWhile_ne_length_iff (a : Char) :
    ∀ l : List Char, ((l.takeWhile (fun x => x != a)).length = l.length) ↔ a ∉ l := by
  intro l
  induction l with
  | nil => simp
  | cons c cs ih =>
    rw [List.takeWhile_cons]
    by_cases h : c = a
    · subst h
      simp only [bne_self_eq_false]
      rw [if_neg (by simp)]
      simp only [List.length_nil, List.length_cons]
      constructor
      · intro h0
        omega
      · intro hmem
        exact absurd (List.mem_cons_self c cs) hmem
    · rw [if_pos (by simp [bne_iff_ne]; exact h)]
      simp only [List.length_cons, Nat.add_right_cancel_iff, ih]
      constructor
      · intro hn hmem
        rcases List.mem_cons.mp hmem with he | hm
        · exact h he.symm
        · exact hn hm
      · intro hn hm
        exact hn (List.mem_cons_of_mem _ hm)

theorem headerLoop_append (line rest : List Char) (acc : List (String × String))
    (hnl : '\n' ∉ line) (hne : line ≠ ['\r']) :
    headerLoop (line ++ '\n' :: rest) acc = headerLoop rest (headerStep acc line) := by
  have htake : (line ++ '\n' :: rest).takeWhile (fun x => x != '\n') = line := by
    apply takeWhile_append_sep
    · intro c hc
      simp only [bne_iff_ne, ne_eq, decide_eq_true_eq]
      intro he
      rw [he] at hc
      exact hnl hc
    · simp
  have hdrop : (line ++ '\n' :: rest).drop (line.length + 1) = rest := drop_append_sep line rest '\n'
  cases hl : line ++ '\n' :: rest with
  | nil => exact absurd hl (by simp)
  | cons c cs =>
    rw [headerLoop_cons]
    rw [← hl, htake, hdrop]
    rw [if_neg hne]

theorem headerLoop_noTerm :
    ∀ (n : Nat) (s : List Char) (acc : List (String × String)), s.length = n →
      (['\r'] ∉ splitCpp '\n' s) →
      headerLoop s acc = (List.foldl headerStep acc (splitCpp '\n' s), []) := by
  intro n
  induction n using Nat.strong_induction_on with
  | _ n ih =>
    intro s acc hlen hterm
    cases s with
    | nil => rw [headerLoop_nil, splitCpp_nil, List.foldl_nil]
    | cons c cs =>
      rw [splitCpp_cons] at hterm ⊢
      have hline : (c :: cs).takeWhile (fun x => x != '\n') ≠ ['\r'] := by
        intro he
        exact hterm (by rw [he]; exact List.mem_cons_self _ _)
      have hrest : ['\r'] ∉
          splitCpp '\n' ((c :: cs).drop (((c :: cs).takeWhile (fun x => x != '\n')).length + 1)) :=
        fun hm => hterm (List.mem_cons_of_mem _ hm)
      rw [headerLoop_cons, if_neg hline, List.foldl_cons]
      have hd : ((c :: cs).drop (((c :: cs).takeWhile (fun x => x != '\n')).length + 1)).length
          < n := by
        simp only [List.length_drop, List.length_cons] at hlen ⊢
        omega
      exact ih _ hd _ (headerStep acc ((c :: cs).takeWhile (fun x => x != '\n'))) rfl hrest

/-! ### The version parse -/

theorem version_of_token_fail_iff (tok : List Char) :
    (version_of_token tok).isOk = false ↔
      (tok.length < 5 ∨ splitCpp '.' (tok.drop 5) = [] ∨
        (stoiCpp ((splitCpp '.' (tok.drop 5)).getD 0 [])).isOk = false ∨
        (splitCpp '.' (tok.drop 5)).length < 2 ∨
        (stoiCpp ((splitCpp '.' (tok.drop 5)).getD 1 [])).isOk = false) := by
  simp only [version_of_token]
  by_cases h5 : tok.length < 5
  · rw [if_pos h5]
    simp [Except.isOk, Except.toBool, h5]
  · rw [if_neg h5]
    cases hvp : splitCpp '.' (tok.drop 5) with
    | nil => simp [Except.isOk, Except.toBool, h5]
    | cons v0 vrest =>
      cases hs0 : stoiCpp v0 with
      | error e =>
        simp only [List.getD_cons_zero, hs0]
        simp [Except.isOk, Except.toBool, h5]
      | ok maj =>
        cases vrest with
        | nil =>
          simp only [List.getD_cons_zero, hs0]
          simp [Except.isOk, Except.toBool, h5, hs0]
        | cons v1 vrest2 =>
          cases hs1 : stoiCpp v1 with
          | error e =>
            simp only [List.getD_cons_zero, List.getD_cons_succ, hs0, hs1]
            simp [Except.isOk, Except.toBool, h5, hs0, hs1]
          | ok mnr =>
            simp only [List.getD_cons_zero, List.getD_cons_succ, hs0, hs1]
            simp [Except.isOk, Except.toBool, h5, hs0, hs1]

/-! ### Claim theorems -/

/-- C1 (amended): `parse_request` fails exactly when the first line has
3 or more space-separated tokens and the version parse of the third
token fails, where the failure is: the token is shorter than 5
characters (`substr` throws out of range), or stripping 5 characters
and splitting on `'.'` yields no part, or the first part does not
convert with `stoi`, or there is no second part (an out-of-bounds
vector access, undefined behaviour in C++, modelled as an error), or
the second part does not convert with `stoi`.  Header and body
processing never fail. -/
theorem claim_C1 (indetM : Method) (indetV : Version) (raw : List Char) :
    (parse_request indetM indetV raw).isOk = false ↔
      (3 ≤ (splitCpp ' ' (requestLineRest raw).1).length ∧
        (((splitCpp ' ' (requestLineRest raw).1).getD 2 []).length < 5 ∨
          splitCpp '.' (((splitCpp ' ' (requestLineRest raw).1).getD 2 []).drop 5) = [] ∨
          (stoiCpp ((splitCpp '.'
            (((splitCpp ' ' (requestLineRest raw).1).getD 2 []).drop 5)).getD 0 [])).isOk
              = false ∨
          (splitCpp '.' (((splitCpp ' ' (requestLineRest raw).1).getD 2 []).drop 5)).length < 2 ∨
          (stoiCpp ((splitCpp '.'
            (((splitCpp ' ' (requestLineRest raw).1).getD 2 []).drop 5)).getD 1 [])).isOk
              = false)) := by
  rw [← version_of_token_fail_iff]
  simp only [parse_request]
  by_cases h3 : 3 ≤ (splitCpp ' ' (requestLineRest raw).1).length
  · rw [if_pos h3]
    cases hv : version_of_token ((splitCpp ' ' (requestLineRest raw).1).getD 2 []) with
    | error e => simp [Except.isOk, Except.toBool, h3, hv]
    | ok v => simp [Except.isOk, Except.toBool, h3, hv]
  · rw [if_neg h3]
    simp [Except.isOk, Except.toBool, h3]

/-- C1, counterexample to the claim as stated: on `"GET / HI\r\n\r\n"`
the first line has three tokens and the parse raises an error, yet the
third token yields no major/minor version substrings at all (so no
substring fails the numeric conversion); on `"GET / HTTP/1\r\n\r\n"`
the major substring is a perfectly valid integer and the error is the
out-of-bounds access for the missing minor part, not a numeric
conversion failure. -/
theorem claim_C1_counterexample :
    parse_request Method.TRACE ⟨7, 9⟩ "GET / HI\r\n\r\n".toList = .error .substrRange ∧
    splitCpp '.' (("HI\r".toList).drop 5) = [] ∧
    parse_request Method.TRACE ⟨7, 9⟩ "GET / HTTP/1\r\n\r\n".toList = .error .vecIndex ∧
    stoiCpp ((splitCpp '.' (("HTTP/1\r".toList).drop 5)).getD 0 []) = .ok 1 := by
  decide

/-- C1, witness: the specification's own example input fails. -/
theorem claim_C1_witness :
    (parse_request Method.TRACE ⟨7, 9⟩ "GET / HTTP/x.y\r\n\r\n".toList).isOk = false :=
  (claim_C1 Method.TRACE ⟨7, 9⟩ "GET / HTTP/x.y\r\n\r\n".toList).mpr (by decide)

/-- C2 (code bug): on a first line with fewer than 3 space-separated
tokens the parse raises no error, the target is empty and headers and
body are parsed normally — but the method and version fields of the
result are exactly the indeterminate values of the default-initialized
scalar members, passed through unchanged.  The code therefore does not
establish the zero/empty defaults the claim (and the spec's deliberate
tolerance policy) assert for method and version; only the
string/map-typed fields get their empty defaults. -/
theorem claim_C2 (indetM : Method) (indetV : Version) (raw : List Char)
    (h : (splitCpp ' ' (requestLineRest raw).1).length < 3) :
    parse_request indetM indetV raw = .ok ⟨indetM, [], indetV,
      (headerLoop (requestLineRest raw).2 []).1, (headerLoop (requestLineRest raw).2 []).2⟩ := by
  simp only [parse_request]
  rw [if_neg (by omega)]

/-- C2, witness at the specification's own example: non-zero garbage in
the uninitialized members flows into the result unchanged, so the
result differs from the zero/empty-default request the claim
promises. -/
theorem claim_C2_witness :
    (splitCpp ' ' (requestLineRest "BADLINE\r\n\r\n".toList).1).length < 3 ∧
    parse_request Method.POST ⟨7, 9⟩ "BADLINE\r\n\r\n".toList =
      .ok ⟨Method.POST, [], ⟨7, 9⟩, [], []⟩ ∧
    parse_request Method.POST ⟨7, 9⟩ "BADLINE\r\n\r\n".toList ≠
      .ok ⟨Method.GET, [], ⟨0, 0⟩, [], []⟩ := by
  refine ⟨by decide, ?_, by decide⟩
  rw [claim_C2 Method.POST ⟨7, 9⟩ "BADLINE\r\n\r\n".toList (by decide)]
  decide

/-- C3: a string value serializes as the escaped bytes wrapped in
double quotes, with the named escapes, a decimal zero-padded 4-digit
backslash-u escape for every other byte below 0x20 (so byte 0x0B
renders as the six characters backslash-u-0-0-1-1), and every other
byte copied unchanged. -/
theorem claim_C3 :
    (∀ s : List Char, stringify (.str s) = '"' :: ((s.map escapeCharClaim).flatten ++ ['"'])) ∧
    escape_string ['\x0b'] = "\\u0011".toList := by
  constructor
  · intro s
    simp only [stringify]
    rw [escape_string_eq_claim]
  · decide

/-- C4: object serialization is insertion-order invariant for distinct
keys, the serialized key sequence of any object map is strictly
ascending in the byte-lexicographic string order, and the two
specification examples serialize identically. -/
theorem claim_C4 :
    (∀ l1 l2 : List (String × JSON), l1.Perm l2 → (l1.map Prod.fst).Nodup →
      stringify (objOf l1) = stringify (objOf l2)) ∧
    (∀ l : List (String × JSON),
      ((mapFromListNew l).map Prod.fst).Pairwise (fun a b => ltStr a b = true)) ∧
    stringify (objOf [("b", .int 1), ("a", .int 2)]) = "\x7b\"a\":2,\"b\":1\x7d".toList ∧
    stringify (objOf [("a", .int 2), ("b", .int 1)]) = "\x7b\"a\":2,\"b\":1\x7d".toList := by
  refine ⟨?_, ?_, by decide, by decide⟩
  · intro l1 l2 hp hn
    show stringify (.obj (mapFromListNew l1)) = stringify (.obj (mapFromListNew l2))
    rw [mapFromListNew_perm hp hn]
  · intro l
    exact (List.pairwise_map).mpr (pairwise_mapFromListNew l)

/-- C4, witness: the insertion-order invariance applied at the
specification's example pair. -/
theorem claim_C4_witness :
    stringify (objOf [("b", JSON.int 1), ("a", JSON.int 2)]) =
      stringify (objOf [("a", JSON.int 2), ("b", JSON.int 1)]) :=
  claim_C4.1 _ _ (List.Perm.swap ("a", JSON.int 2) ("b", JSON.int 1) []) (by decide)

/-- C5: a response built from any insertion sequence of headers emits
its header lines in strictly ascending key order, and the
specification's 404 example produces exactly the expected wire
bytes. -/
theorem claim_C5 :
    (∀ l : List (String × String),
      ((mapFromList l).map Prod.fst).Pairwise (fun a b => ltStr a b = true)) ∧
    construct_response
        ⟨⟨1, 1⟩, 404, mapFromList [("Content-Type", "application/json")], "null".toList⟩ =
      "HTTP/1.1 404 Not Found\r\nContent-Type: application/json\r\n\r\nnull".toList := by
  refine ⟨?_, by decide⟩
  intro l
  exact (List.pairwise_map).mpr (pairwise_mapFromList l)

/-- C6: inside the header loop, a non-terminator line containing a
colon is split at the first colon, both sides trimmed and stored with
overwrite semantics; a line without a colon is skipped; the line
consisting of the single character carriage-return ends the loop and
everything after it is the body verbatim; a repeated key keeps the
later value. -/
theorem claim_C6 :
    (∀ (line rest : List Char) (acc : List (String × String)),
      '\n' ∉ line → line ≠ ['\r'] → ':' ∈ line →
      headerLoop (line ++ '\n' :: rest) acc =
        headerLoop rest
          (mapInsert (String.mk (trim (line.takeWhile (fun x => x != ':'))))
            (String.mk (trim (line.drop ((line.takeWhile (fun x => x != ':')).length + 1))))
            acc)) ∧
    (∀ (line rest : List Char) (acc : List (String × String)),
      '\n' ∉ line → line ≠ ['\r'] → ':' ∉ line →
      headerLoop (line ++ '\n' :: rest) acc = headerLoop rest acc) ∧
    (∀ (rest : List Char) (acc : List (String × String)),
      headerLoop ('\r' :: '\n' :: rest) acc = (acc, rest)) ∧
    (∀ (k v : String) (m : List (String × String)), alookup k (mapInsert k v m) = some v) := by
  refine ⟨?_, ?_, ?_, ?_⟩
  · intro line rest acc hnl hne hcolon
    rw [headerLoop_append line rest acc hnl hne]
    simp only [headerStep]
    rw [if_neg (fun hlen => ((takeWhile_ne_length_iff ':' line).mp hlen) hcolon)]
  · intro line rest acc hnl hne hcolon
    rw [headerLoop_append line rest acc hnl hne]
    simp only [headerStep]
    rw [if_pos ((takeWhile_ne_length_iff ':' line).mpr hcolon)]
  · intro rest acc
    rw [headerLoop_cons]
    have ht : ('\r' :: '\n' :: rest).takeWhile (fun x => x != '\n') = ['\r'] := by
      rw [List.takeWhile_cons, if_pos (by decide), List.takeWhile_cons, if_neg (by simp)]
    rw [ht, if_pos rfl]
    simp
  · intro k v m
    exact alookup_mapInsert_self k v m

/-- C6, witness: the four behaviours at concrete header lines. -/
theorem claim_C6_witness :
    (headerLoop ("Host: x".toList ++ '\n' :: "\r\nB".toList) [] = ([("Host", "x")], "B".toList)) ∧
    (headerLoop ("NOCOLON".toList ++ '\n' :: "\r\n".toList) [] = ([], [])) ∧
    (headerLoop ('\r' :: '\n' :: "B".toList) [] = ([], "B".toList)) ∧
    alookup "A" (mapInsert "A" "2" (mapInsert "A" "1" [])) = some "2" := by
  refine ⟨?_, ?_, ?_, ?_⟩
  · rw [claim_C6.1 "Host: x".toList "\r\nB".toList [] (by decide) (by decide) (by decide)]
    decide
  · rw [claim_C6.2.1 "NOCOLON".toList "\r\n".toList [] (by decide) (by decide) (by decide)]
    decide
  · exact claim_C6.2.2.1 "B".toList []
  · exact claim_C6.2.2.2 "A" "2" (mapInsert "A" "1" [])

/-- C7: the reason-phrase lookup returns the standard phrase on each of
the 13 whitelisted codes and the literal "Unknown Status" on every
other integer status value. -/
theorem claim_C7 :
    (∀ s : Int,
      s ∉ ([200, 201, 202, 204, 400, 401, 403, 404, 405, 500, 501, 502, 503] : List Int) →
      status_message s = "Unknown Status".toList) ∧
    (status_message 200 = "OK".toList ∧
      status_message 201 = "Created".toList ∧
      status_message 202 = "Accepted".toList ∧
      status_message 204 = "No Content".toList ∧
      status_message 400 = "Bad Request".toList ∧
      status_message 401 = "Unauthorized".toList ∧
      status_message 403 = "Forbidden".toList ∧
      status_message 404 = "Not Found".toList ∧
      status_message 405 = "Method Not Allowed".toList ∧
      status_message 500 = "Internal Server Error".toList ∧
      status_message 501 = "Not Implemented".toList ∧
      status_message 502 = "Bad Gateway".toList ∧
      status_message 503 = "Service Unavailable".toList) := by
  constructor
  · intro s hs
    simp only [List.mem_cons, List.mem_singleton, not_or] at hs
    obtain ⟨h1, h2, h3, h4, h5, h6, h7, h8, h9, h10, h11, h12, h13⟩ := hs
    simp [status_message, h1, h2, h3, h4, h5, h6, h7, h8, h9, h10, h11, h12, h13]
  · decide

/-- C7, witness: a programmatically constructed status outside the
whitelist resolves to "Unknown Status". -/
theorem claim_C7_witness : status_message 999 = "Unknown Status".toList :=
  claim_C7.1 999 (by decide)

/-- C8: converting any method to its string and back yields the same
method (with UNKNOWN rendering as the literal "UNKNOWN"), and every
string that is not an exact case-sensitive match of one of the nine
known verbs maps to UNKNOWN without failing. -/
theorem claim_C8 :
    (∀ m : Method, string_to_method (method_to_string m) = m) ∧
    method_to_string Method.UNKNOWN = "UNKNOWN".toList ∧
    (∀ s : List Char,
      s ∉ (["GET".toList, "HEAD".toList, "POST".toList, "PUT".toList, "DELETE".toList,
        "CONNECT".toList, "OPTIONS".toList, "TRACE".toList, "PATCH".toList]
          : List (List Char)) →
      string_to_method s = Method.UNKNOWN) := by
  refine ⟨?_, by decide, ?_⟩
  · intro m
    cases m <;> decide
  · intro s hs
    simp only [List.mem_cons, List.mem_singleton, not_or] at hs
    obtain ⟨h1, h2, h3, h4, h5, h6, h7, h8, h9, -⟩ := hs
    simp only [string_to_method]
    rw [if_neg h1, if_neg h2, if_neg h3, if_neg h4, if_neg h5, if_neg h6, if_neg h7,
      if_neg h8, if_neg h9]

/-- C8, witness: a lowercase verb is not an exact match and maps to
UNKNOWN. -/
theorem claim_C8_witness : string_to_method "get".toList = Method.UNKNOWN :=
  claim_C8.2.2 "get".toList (by decide)

/-- C9 (amended): provided the request line itself does not fail (fewer
than 3 tokens, or its version parses), a buffer whose remainder
contains no line consisting of exactly the single carriage-return
character parses without error, its headers are the fold of the header
step over all remaining lines (storing every colon line, skipping the
rest), and its body is empty. -/
theorem claim_C9 (indetM : Method) (indetV : Version) (raw : List Char)
    (hline : (splitCpp ' ' (requestLineRest raw).1).length < 3 ∨
      (version_of_token ((splitCpp ' ' (requestLineRest raw).1).getD 2 [])).isOk = true)
    (hterm : ['\r'] ∉ splitCpp '\n' (requestLineRest raw).2) :
    ∃ r, parse_request indetM indetV raw = .ok r ∧
      r.headers = List.foldl headerStep [] (splitCpp '\n' (requestLineRest raw).2) ∧
      r.body = [] := by
  have hHL := headerLoop_noTerm (requestLineRest raw).2.length (requestLineRest raw).2 [] rfl hterm
  simp only [parse_request]
  by_cases h3 : 3 ≤ (splitCpp ' ' (requestLineRest raw).1).length
  · rw [if_pos h3]
    cases hv : version_of_token ((splitCpp ' ' (requestLineRest raw).1).getD 2 []) with
    | error e =>
      rcases hline with hlt | hok
      · omega
      · rw [hv] at hok
        cases hok
    | ok v =>
      exact ⟨_, rfl, by rw [hHL], by rw [hHL]⟩
  · rw [if_neg h3]
    exact ⟨_, rfl, by rw [hHL], by rw [hHL]⟩

/-- C9, counterexample to the claim as stated: this buffer contains no
header-terminator line, yet `parse_request` raises an error, because
the request line's third token is too short for the version parse. -/
theorem claim_C9_counterexample :
    (['\r'] ∉ splitCpp '\n' (requestLineRest "GET / HI\nHost: x".toList).2) ∧
    parse_request Method.TRACE ⟨7, 9⟩ "GET / HI\nHost: x".toList = .error .substrRange := by
  decide

/-- C9, witness: a well-formed request line with headers but no
terminator line parses with an empty body. -/
theorem claim_C9_witness :
    ∃ r, parse_request Method.TRACE ⟨7, 9⟩ "GET / HTTP/1.1\r\nHost: x".toList = .ok r ∧
      r.headers = List.foldl headerStep []
        (splitCpp '\n' (requestLineRest "GET / HTTP/1.1\r\nHost: x".toList).2) ∧
      r.body = [] :=
  claim_C9 Method.TRACE ⟨7, 9⟩ "GET / HTTP/1.1\r\nHost: x".toList (by decide) (by decide)

/-- C10: object keys are escaped exactly as string values: each member
of a serialized object is rendered as the stringification of the key
as a string value, a colon, and the member's value, and a key holding
a newline is escaped in the output. -/
theorem claim_C10 :
    (∀ kvs : List (String × JSON), stringify (.obj kvs) =
      '{' :: (joinComma
        (kvs.map (fun kv => stringify (.str kv.1.data) ++ ':' :: stringify kv.2)) ++ ['}'])) ∧
    stringify (objOf [("\nk", .null)]) = "\x7b\"\\nk\":null\x7d".toList := by
  constructor
  · intro kvs
    rw [show stringify (.obj kvs) = '{' :: (stringifyMembers kvs ++ ['}']) from rfl,
      stringifyMembers_eq]
  · decide
